import Mathlib

set_option maxRecDepth 40000

/-!
Shallow embedding of the core of `order-packs-calculator`:
the packing engine (`internal/calculator/calculator.go`) and the
pack-size store (`internal/storage/storage.go`), together with the
properties claimed about them.

Modelling conventions:
* Go `int` values are modelled as `Int` at the API boundary (item counts
  and raw pack sizes may be negative there).  After validation every
  pack size is provably positive and the item count non-negative, and
  the dynamic program works on `Nat`, mirroring the Go code in which all
  the involved quantities are non-negative in that region.
* The two Go slices `dp` and `choice` (both of length `items+1`, only
  indices `0..items` are ever read or written) are modelled as total
  functions `Nat → Nat` and `Nat → Int`.
* The Go `map[int]int` result is modelled as an association list
  `List (Nat × Nat)` with distinct keys; `bump` is `result[size]++`.
* The reconstruction `for` loop is modelled with a fuel parameter equal
  to the initial `remaining` value; since every iteration either fails
  or strictly decreases `remaining` by at least one, this fuel is always
  sufficient, so the fuel-exhaustion branch is unreachable for the
  actual call (`fuel = remaining = items`).
-/

instance {ε α : Type} [DecidableEq ε] [DecidableEq α] : DecidableEq (Except ε α) := fun x y =>
  match x, y with
  | .ok a, .ok b =>
    if h : a = b then isTrue (by rw [h]) else isFalse (by intro hc; cases hc; exact h rfl)
  | .ok _, .error _ => isFalse (by intro hc; cases hc)
  | .error _, .ok _ => isFalse (by intro hc; cases hc)
  | .error e, .error f =>
    if h : e = f then isTrue (by rw [h]) else isFalse (by intro hc; cases hc; exact h rfl)

namespace PackCalc

/-- The three error values of `internal/calculator/errors.go`. -/
inductive CalcError where
  | invalidItems
  | invalidPackSizes
  | cannotFulfill
deriving DecidableEq, Repr

/-- `const maxPackSizes = 10` in `calculator.go`. -/
def maxPackSizes : Nat := 10

/-- The loop body of `normalizePackSizes` in `calculator.go`: scan the
input, reject non-positive entries, accumulate the distinct values seen
so far (in first-occurrence order), and reject as soon as more than
`maxPackSizes` distinct values have been seen. -/
def collectUnique : List Int → List Int → Except CalcError (List Int)
  | [], unique => .ok unique
  | size :: rest, unique =>
    if size ≤ 0 then .error .invalidPackSizes
    else
      let unique' := if size ∈ unique then unique else unique ++ [size]
      if maxPackSizes < unique'.length then .error .invalidPackSizes
      else collectUnique rest unique'

/-- `normalizePackSizes` of `calculator.go`: empty input is rejected,
then the scan above, then `sort.Ints` (ascending sort). -/
def normalizePackSizes (packSizes : List Int) : Except CalcError (List Int) :=
  if packSizes.length = 0 then .error .invalidPackSizes
  else
    match collectUnique packSizes [] with
    | .error e => .error e
    | .ok unique => .ok (List.insertionSort (· ≤ ·) unique)

/-- The two DP tables of `CalculatePacks`, as functions on amounts. -/
structure DPState where
  dp : Nat → Nat
  choice : Nat → Int

/-- Initialisation of the tables: `dp[0] = 0`, `choice[0] = 0` (Go zero
value, never read), and `dp[i] = inf = items+1`, `choice[i] = -1` for
`i ≥ 1`. -/
def initState (items : Nat) : DPState where
  dp := fun i => if i = 0 then 0 else items + 1
  choice := fun i => if i = 0 then 0 else -1

/-- One iteration of the inner relaxation loop at `amount`:
`if dp[amount-size]+1 < dp[amount] { dp[amount] = dp[amount-size]+1;
choice[amount] = size }`. -/
def dpStep (size : Nat) (st : DPState) (amount : Nat) : DPState :=
  if st.dp (amount - size) + 1 < st.dp amount then
    { dp := fun i => if i = amount then st.dp (amount - size) + 1 else st.dp i
      choice := fun i => if i = amount then (size : Int) else st.choice i }
  else st

/-- The inner loop `for amount := size; amount <= items; amount++`. -/
def relaxSize (items size : Nat) (st : DPState) : DPState :=
  (List.range' size (items + 1 - size)).foldl (dpStep size) st

/-- The outer loop `for _, size := range normalized`. -/
def runDP (items : Nat) (sizes : List Nat) : DPState :=
  sizes.foldl (fun st s => relaxSize items s st) (initState items)

/-- `result[size]++` on the association-list model of the Go map. -/
def bump (result : List (Nat × Nat)) (size : Nat) : List (Nat × Nat) :=
  match result with
  | [] => [(size, 1)]
  | (s, c) :: rest => if s = size then (s, c + 1) :: rest else (s, c) :: bump rest size

/-- The reconstruction loop
`for remaining := items; remaining > 0; { size := choice[remaining];
if size <= 0 { return ErrCannotFulfill }; result[size]++;
remaining -= size }`, with fuel (see the header comment). -/
def reconstruct (choice : Nat → Int) :
    Nat → Nat → List (Nat × Nat) → Except CalcError (List (Nat × Nat))
  | 0, remaining, result =>
    if remaining = 0 then .ok result else .error .cannotFulfill
  | fuel + 1, remaining, result =>
    if remaining = 0 then .ok result
    else
      let size := choice remaining
      if size ≤ 0 then .error .cannotFulfill
      else reconstruct choice fuel (remaining - size.toNat) (bump result size.toNat)

/-- `dpCalculator.CalculatePacks` of `calculator.go`.  `normalized` is
provably non-empty when validation succeeds, so `normalized.headD 0`
coincides with the Go `normalized[0]`. -/
def CalculatePacks (items : Int) (packSizes : List Int) :
    Except CalcError (List (Nat × Nat)) :=
  if items < 0 then .error .invalidItems
  else
    match normalizePackSizes packSizes with
    | .error e => .error e
    | .ok normalized =>
      if items = 0 then .ok []
      else if items < normalized.headD 0 then .error .cannotFulfill
      else
        let itemsN := items.toNat
        let sizesN := normalized.map Int.toNat
        let final := runDP itemsN sizesN
        if final.choice itemsN = -1 then .error .cannotFulfill
        else reconstruct final.choice itemsN itemsN []

/-! ### Statement vocabulary (formalising the spec's notions) -/

/-- Total number of packs of a distribution. -/
def totalPacks (d : List (Nat × Nat)) : Nat := (d.map (·.2)).sum

/-- Weighted sum `Σ size × count` of a distribution. -/
def totalItems (d : List (Nat × Nat)) : Nat := (d.map (fun p => p.1 * p.2)).sum

/-- The keys (pack sizes) of a distribution. -/
def keysOf (d : List (Nat × Nat)) : List Nat := d.map (·.1)

/-- `Reach S a k`: some multiset of `k` packs drawn (with repetition)
from `S` sums exactly to `a`. -/
def Reach (S : List Nat) (a k : Nat) : Prop :=
  ∃ l : List Nat, (∀ x ∈ l, x ∈ S) ∧ l.sum = a ∧ l.length = k

/-- `a` can be fulfilled exactly from `S` (with any number of packs). -/
def Feasible (S : List Nat) (a : Nat) : Prop := ∃ k, Reach S a k

/-- A valid pack-size set: 1 to 10 distinct positive integers. -/
def ValidPackSizeSet (S : List Int) : Prop :=
  S ≠ [] ∧ S.Nodup ∧ S.length ≤ 10 ∧ ∀ x ∈ S, 0 < x

/-- The rejection condition of the spec: empty, a non-positive member,
or more than 10 distinct values after deduplication. -/
def InvalidSizes (S : List Int) : Prop :=
  S = [] ∨ (∃ x ∈ S, x ≤ 0) ∨ 10 < S.toFinset.card

instance (S : List Int) : Decidable (ValidPackSizeSet S) := by
  unfold ValidPackSizeSet
  infer_instance

instance (S : List Int) : Decidable (InvalidSizes S) := by
  unfold InvalidSizes
  infer_instance

/-- The deduplicated list accumulated by the scan of `collectUnique`
(first-occurrence order), used to state what that scan computes. -/
def dedupAppend (acc : List Int) (xs : List Int) : List Int :=
  xs.foldl (fun a x => if x ∈ a then a else a ++ [x]) acc

/-- Weighted item sum of a counts assignment `f` over the members of
`S` (the spec's "mapping size → count"). -/
def comboItems (S : List Int) (f : Int → Nat) : Int :=
  (S.map (fun s => s * (f s : Int))).sum

/-- Total pack count of a counts assignment `f` over the members of `S`. -/
def comboPacks (S : List Int) (f : Int → Nat) : Nat :=
  (S.map f).sum

end PackCalc

namespace PackStore

/-- `ErrInvalidPackSizes` of `internal/storage/storage.go`. -/
inductive StorageError where
  | invalidPackSizes
deriving DecidableEq, Repr

/-- `const maxPackSizes = 10` in `storage.go`. -/
def maxPackSizes : Nat := 10

/-- The loop body of `normalizePackSizes` in `storage.go` (textually
identical to the calculator's, modulo the error type). -/
def collectUnique : List Int → List Int → Except StorageError (List Int)
  | [], unique => .ok unique
  | size :: rest, unique =>
    if size ≤ 0 then .error .invalidPackSizes
    else
      let unique' := if size ∈ unique then unique else unique ++ [size]
      if maxPackSizes < unique'.length then .error .invalidPackSizes
      else collectUnique rest unique'

/-- `normalizePackSizes` of `storage.go`. -/
def normalizePackSizes (packSizes : List Int) : Except StorageError (List Int) :=
  if packSizes.length = 0 then .error .invalidPackSizes
  else
    match collectUnique packSizes [] with
    | .error e => .error e
    | .ok unique => .ok (List.insertionSort (· ≤ ·) unique)

/-- `cloneAndSort` of `storage.go`: copy and sort ascending. -/
def cloneAndSort (src : List Int) : List Int :=
  if src.length = 0 then [] else List.insertionSort (· ≤ ·) src

/-- `defaultPackSizes` of `storage.go`. -/
def defaultPackSizes : List Int := [250, 500, 1000, 2000, 5000]

/-- The value held by a `MemoryStorage` (its `packSizes` field). -/
def NewMemoryStorage : List Int := cloneAndSort defaultPackSizes

/-- `MemoryStorage.SetPackSizes` as a state transition on the stored
value: validate/normalise, and on success replace the stored set. -/
def SetPackSizes (sizes : List Int) (st : List Int) :
    Except StorageError Unit × List Int :=
  match normalizePackSizes sizes with
  | .error e => (.error e, st)
  | .ok normalized => (.ok (), normalized)

/-- `MemoryStorage.GetPackSizes` on the stored value: always a `.ok`
holding a sorted copy, leaving the state unchanged. -/
def GetPackSizes (st : List Int) : Except StorageError (List Int) :=
  .ok (cloneAndSort st)

/-- States of the store reachable from initialisation through any
sequence of `SetPackSizes` calls. -/
inductive Reachable : List Int → Prop where
  | init : Reachable NewMemoryStorage
  | set (sizes : List Int) {st : List Int} (h : Reachable st) :
      Reachable (SetPackSizes sizes st).2

/-! ### Heap model for slice aliasing (claim about snapshot independence)

Go slices are references into backing arrays; `cloneAndSort` allocates a
fresh backing array (`make` + `copy`), so the slice returned by
`GetPackSizes` never aliases the store's internal slice.  We model the
relevant heap as a list of integer-list cells addressed by index. -/

/-- A heap of slice cells together with the store's internal slice
reference (`MemoryStorage.packSizes`). -/
structure HeapState where
  heap : List (List Int)
  storeRef : Nat

/-- Read the cell a slice reference points to. -/
def readCell (h : List (List Int)) (r : Nat) : List Int := h.getD r []

/-- Overwrite the cell a slice reference points to (a caller mutating a
slice it holds). -/
def writeCell (h : List (List Int)) (r : Nat) (v : List Int) : List (List Int) :=
  h.set r v

/-- `GetPackSizes` in the heap model: copy-and-sort the store's cell
into a freshly allocated cell and return (nil error and) a reference to
that new cell.  The store's own reference is untouched. -/
def getPackSizesH (st : HeapState) : HeapState × Except StorageError Nat :=
  ({ heap := st.heap ++ [cloneAndSort (readCell st.heap st.storeRef)]
     storeRef := st.storeRef },
   .ok st.heap.length)

/-- The value a `GetPackSizes` call lets the caller observe. -/
def observedSet (st : HeapState) : List Int :=
  cloneAndSort (readCell st.heap st.storeRef)

end PackStore

section SanityChecks

example : PackCalc.CalculatePacks 11 [3, 5] = .ok [(5, 1), (3, 2)] := by decide

example : PackCalc.CalculatePacks 7 [3, 5] = .error .cannotFulfill := by decide

example : PackCalc.CalculatePacks 0 [] = .error .invalidPackSizes := by decide

example : PackCalc.CalculatePacks (-1) [] = .error .invalidItems := by decide

example : PackCalc.CalculatePacks 75 [25, 50, 100] = .ok [(50, 1), (25, 1)] := by decide

example : PackStore.NewMemoryStorage = [250, 500, 1000, 2000, 5000] := by decide

end SanityChecks

/-! ## Properties of the validation scan -/

namespace PackCalc

theorem dedupAppend_nil_right (acc : List Int) : dedupAppend acc [] = acc := rfl

theorem dedupAppend_cons (acc : List Int) (x : Int) (xs : List Int) :
    dedupAppend acc (x :: xs) = dedupAppend (if x ∈ acc then acc else acc ++ [x]) xs := rfl

theorem length_le_dedupAppend (xs : List Int) :
    ∀ acc : List Int, acc.length ≤ (dedupAppend acc xs).length := by
  induction xs with
  | nil => intro acc; simp [dedupAppend]
  | cons x xs ih =>
    intro acc
    rw [dedupAppend_cons]
    by_cases hx : x ∈ acc
    · rw [if_pos hx]; exact ih acc
    · rw [if_neg hx]
      calc acc.length ≤ (acc ++ [x]).length := by simp
        _ ≤ _ := ih (acc ++ [x])

theorem mem_dedupAppend (xs : List Int) :
    ∀ (acc : List Int) (a : Int), a ∈ dedupAppend acc xs ↔ a ∈ acc ∨ a ∈ xs := by
  induction xs with
  | nil => intro acc a; simp [dedupAppend]
  | cons x xs ih =>
    intro acc a
    rw [dedupAppend_cons]
    by_cases hx : x ∈ acc
    · rw [if_pos hx, ih]
      constructor
      · rintro (h | h)
        · exact Or.inl h
        · exact Or.inr (List.mem_cons_of_mem _ h)
      · rintro (h | h)
        · exact Or.inl h
        · rcases List.mem_cons.mp h with rfl | h
          · exact Or.inl hx
          · exact Or.inr h
    · rw [if_neg hx, ih]
      simp only [List.mem_append, List.mem_singleton, List.mem_cons]
      tauto

theorem nodup_dedupAppend (xs : List Int) :
    ∀ acc : List Int, acc.Nodup → (dedupAppend acc xs).Nodup := by
  induction xs with
  | nil => intro acc h; simpa [dedupAppend] using h
  | cons x xs ih =>
    intro acc h
    rw [dedupAppend_cons]
    by_cases hx : x ∈ acc
    · rw [if_pos hx]; exact ih acc h
    · rw [if_neg hx]
      refine ih _ ?_
      simp [List.nodup_append, h, hx]

theorem dedupAppend_of_nodup (xs : List Int) :
    ∀ acc : List Int, xs.Nodup → (∀ x ∈ xs, x ∉ acc) → dedupAppend acc xs = acc ++ xs := by
  induction xs with
  | nil => intro acc _ _; simp [dedupAppend]
  | cons x xs ih =>
    intro acc hnd hdisj
    rw [dedupAppend_cons, if_neg (hdisj x (List.mem_cons_self x xs))]
    rw [ih (acc ++ [x]) (List.nodup_cons.mp hnd).2 ?_]
    · simp
    · intro y hy
      simp only [List.mem_append, List.mem_singleton]
      rintro (hya | rfl)
      · exact hdisj y (List.mem_cons_of_mem _ hy) hya
      · exact (List.nodup_cons.mp hnd).1 hy

theorem collectUnique_cases (xs : List Int) :
    ∀ acc : List Int,
      collectUnique xs acc = .error .invalidPackSizes ∨
        collectUnique xs acc = .ok (dedupAppend acc xs) := by
  induction xs with
  | nil => intro acc; exact Or.inr rfl
  | cons x xs ih =>
    intro acc
    by_cases hx : x ≤ 0
    · left; simp [collectUnique, hx]
    · by_cases hlen : maxPackSizes < (if x ∈ acc then acc else acc ++ [x]).length
      · left; simp [collectUnique, hx, hlen]
      · have heq : collectUnique (x :: xs) acc =
            collectUnique xs (if x ∈ acc then acc else acc ++ [x]) := by
          simp [collectUnique, hx, hlen]
        rw [heq, dedupAppend_cons]
        exact ih _

theorem collectUnique_ok_iff (xs : List Int) :
    ∀ acc u : List Int, acc.length ≤ maxPackSizes →
      (collectUnique xs acc = .ok u ↔
        ((∀ x ∈ xs, 0 < x) ∧ (dedupAppend acc xs).length ≤ maxPackSizes ∧
          u = dedupAppend acc xs)) := by
  induction xs with
  | nil =>
    intro acc u hacc
    simp only [collectUnique, dedupAppend_nil_right, Except.ok.injEq]
    constructor
    · rintro rfl; exact ⟨by simp, hacc, rfl⟩
    · rintro ⟨-, -, rfl⟩; rfl
  | cons x xs ih =>
    intro acc u hacc
    rw [dedupAppend_cons]
    by_cases hx : x ≤ 0
    · simp only [collectUnique, if_pos hx]
      constructor
      · intro h; cases h
      · rintro ⟨hall, -, -⟩
        exact absurd (hall x (List.mem_cons_self x xs)) (not_lt.mpr hx)
    · by_cases hlen : maxPackSizes < (if x ∈ acc then acc else acc ++ [x]).length
      · have herr : collectUnique (x :: xs) acc = .error .invalidPackSizes := by
          simp [collectUnique, hx, hlen]
        rw [herr]
        constructor
        · intro h; cases h
        · rintro ⟨-, hle, -⟩
          exact absurd (lt_of_lt_of_le hlen (length_le_dedupAppend xs _)) (not_lt.mpr hle)
      · have heq : collectUnique (x :: xs) acc =
            collectUnique xs (if x ∈ acc then acc else acc ++ [x]) := by
          simp [collectUnique, hx, hlen]
        rw [heq, ih _ u (not_lt.mp hlen)]
        constructor
        · rintro ⟨h1, h2, h3⟩
          refine ⟨?_, h2, h3⟩
          intro z hz
          rcases List.mem_cons.mp hz with rfl | hz
          · exact lt_of_not_le hx
          · exact h1 z hz
        · rintro ⟨h1, h2, h3⟩
          exact ⟨fun z hz => h1 z (List.mem_cons_of_mem _ hz), h2, h3⟩

theorem dedupAppend_length_eq_card (S : List Int) :
    (dedupAppend [] S).length = S.toFinset.card := by
  have hnd : (dedupAppend [] S).Nodup := nodup_dedupAppend S [] List.nodup_nil
  have hmem : (dedupAppend [] S).toFinset = S.toFinset := by
    ext a
    simp [List.mem_toFinset, mem_dedupAppend]
  rw [← List.toFinset_card_of_nodup hnd, hmem]

theorem normalize_ok_iff (S l : List Int) :
    normalizePackSizes S = .ok l ↔
      (S ≠ [] ∧ (∀ x ∈ S, 0 < x) ∧ (dedupAppend [] S).length ≤ maxPackSizes ∧
        l = List.insertionSort (· ≤ ·) (dedupAppend [] S)) := by
  unfold normalizePackSizes
  by_cases hS : S.length = 0
  · rw [if_pos hS]
    simp [List.length_eq_zero.mp hS]
  · rw [if_neg hS]
    have hne : S ≠ [] := fun h => hS (by simp [h])
    rcases collectUnique_cases S [] with h | h
    · rw [h]
      constructor
      · intro hc; cases hc
      · rintro ⟨-, hpos, hlen, rfl⟩
        have hok := (collectUnique_ok_iff S [] (dedupAppend [] S)
          (by simp [maxPackSizes])).mpr ⟨hpos, hlen, rfl⟩
        rw [h] at hok
        cases hok
    · have hconds := (collectUnique_ok_iff S [] (dedupAppend [] S)
        (by simp [maxPackSizes])).mp h
      rw [h]
      simp only [Except.ok.injEq]
      constructor
      · rintro rfl
        exact ⟨hne, hconds.1, hconds.2.1, rfl⟩
      · rintro ⟨-, -, -, rfl⟩
        rfl

theorem invalidSizes_iff_not_ok (S : List Int) :
    InvalidSizes S ↔
      ¬(S ≠ [] ∧ (∀ x ∈ S, 0 < x) ∧ (dedupAppend [] S).length ≤ maxPackSizes) := by
  rw [dedupAppend_length_eq_card]
  unfold InvalidSizes maxPackSizes
  constructor
  · rintro (rfl | ⟨x, hx, hx0⟩ | hcard)
    · rintro ⟨hne, -, -⟩; exact hne rfl
    · rintro ⟨-, hpos, -⟩; exact absurd (hpos x hx) (not_lt.mpr hx0)
    · rintro ⟨-, -, hlen⟩; exact absurd hcard (not_lt.mpr hlen)
  · intro h
    by_cases hne : S = []
    · exact Or.inl hne
    · by_cases hpos : ∀ x ∈ S, 0 < x
      · refine Or.inr (Or.inr ?_)
        by_contra hcard
        exact h ⟨hne, hpos, not_lt.mp hcard⟩
      · refine Or.inr (Or.inl ?_)
        push_neg at hpos
        obtain ⟨x, hx, hx0⟩ := hpos
        exact ⟨x, hx, hx0⟩

theorem normalize_error_iff (S : List Int) (e : CalcError) :
    normalizePackSizes S = .error e ↔
      (e = CalcError.invalidPackSizes ∧ InvalidSizes S) := by
  by_cases hcond : S ≠ [] ∧ (∀ x ∈ S, 0 < x) ∧ (dedupAppend [] S).length ≤ maxPackSizes
  · have hok := (normalize_ok_iff S _).mpr ⟨hcond.1, hcond.2.1, hcond.2.2, rfl⟩
    rw [hok]
    constructor
    · intro h; cases h
    · rintro ⟨-, hinv⟩
      exact absurd hcond ((invalidSizes_iff_not_ok S).mp hinv)
  · have hinv : InvalidSizes S := (invalidSizes_iff_not_ok S).mpr hcond
    cases hres : normalizePackSizes S with
    | ok l =>
      have := (normalize_ok_iff S l).mp hres
      exact absurd ⟨this.1, this.2.1, this.2.2.1⟩ hcond
    | error e' =>
      have he' : e' = CalcError.invalidPackSizes := by
        unfold normalizePackSizes at hres
        by_cases hS : S.length = 0
        · rw [if_pos hS] at hres; cases hres; rfl
        · rw [if_neg hS] at hres
          rcases collectUnique_cases S [] with h | h
          · rw [h] at hres; cases hres; rfl
          · rw [h] at hres; cases hres
      subst he'
      simp only [Except.error.injEq]
      constructor
      · rintro rfl; exact ⟨rfl, hinv⟩
      · rintro ⟨rfl, -⟩; rfl

theorem normalize_valid (S : List Int) (h : ValidPackSizeSet S) :
    normalizePackSizes S = .ok (List.insertionSort (· ≤ ·) S) := by
  obtain ⟨hne, hnd, hlen, hpos⟩ := h
  have hd : dedupAppend [] S = S := by
    simpa using dedupAppend_of_nodup S [] hnd (by simp)
  exact (normalize_ok_iff S _).mpr ⟨hne, hpos, by rw [hd]; exact hlen, by rw [hd]⟩

theorem normalize_ok_props (S l : List Int) (h : normalizePackSizes S = .ok l) :
    l ≠ [] ∧ l.Nodup ∧ l.Sorted (· ≤ ·) ∧ (∀ x ∈ l, 0 < x) ∧
      (∀ a : Int, a ∈ l ↔ a ∈ S) ∧ l.length ≤ maxPackSizes := by
  obtain ⟨hne, hpos, hlen, rfl⟩ := (normalize_ok_iff S l).mp h
  have hperm := List.perm_insertionSort (· ≤ ·) (dedupAppend [] S)
  have hmem : ∀ a : Int,
      a ∈ List.insertionSort (· ≤ ·) (dedupAppend [] S) ↔ a ∈ S := by
    intro a
    rw [hperm.mem_iff, mem_dedupAppend]
    simp
  refine ⟨?_, ?_, ?_, ?_, hmem, ?_⟩
  · intro hl
    obtain ⟨x, hx⟩ := List.exists_mem_of_ne_nil S hne
    rw [← hmem x] at hx
    rw [hl] at hx
    cases hx
  · exact hperm.nodup_iff.mpr (nodup_dedupAppend S [] List.nodup_nil)
  · exact List.sorted_insertionSort (· ≤ ·) (dedupAppend [] S)
  · intro x hx
    have hx' : x ∈ dedupAppend [] S := hperm.mem_iff.mp hx
    rcases (mem_dedupAppend S [] x).mp hx' with h0 | h0
    · cases h0
    · exact hpos x h0
  · exact hperm.length_eq.le.trans hlen

/-! ## Reachability (exact fulfilment by a multiset of packs) -/

theorem reach_nil (S : List Nat) : Reach S 0 0 :=
  ⟨[], by simp, by simp, by simp⟩

theorem mem_le_sum {x : Nat} : ∀ {l : List Nat}, x ∈ l → x ≤ l.sum := by
  intro l
  induction l with
  | nil => intro hx; cases hx
  | cons a l ih =>
    intro hx
    rcases List.mem_cons.mp hx with rfl | hx
    · simp
    · have := ih hx
      simp only [List.sum_cons]
      omega

theorem length_le_sum_of_pos : ∀ {l : List Nat}, (∀ x ∈ l, 0 < x) → l.length ≤ l.sum := by
  intro l
  induction l with
  | nil => intro _; simp
  | cons a l ih =>
    intro hpos
    have ha := hpos a (List.mem_cons_self a l)
    have := ih fun x hx => hpos x (List.mem_cons_of_mem _ hx)
    simp only [List.length_cons, List.sum_cons]
    omega

theorem reach_sub (S : List Nat) {a k s : Nat} (hs : s ∈ S) (hsa : s ≤ a)
    (h : Reach S (a - s) k) : Reach S a (k + 1) := by
  obtain ⟨l, hl, hsum, hlen⟩ := h
  refine ⟨s :: l, ?_, ?_, ?_⟩
  · intro x hx
    rcases List.mem_cons.mp hx with rfl | hx
    · exact hs
    · exact hl x hx
  · simp only [List.sum_cons, hsum]
    omega
  · simp [hlen]

theorem reach_mono {S S' : List Nat} (hsub : ∀ x ∈ S, x ∈ S') {a k : Nat} :
    Reach S a k → Reach S' a k := by
  rintro ⟨l, hl, hsum, hlen⟩
  exact ⟨l, fun x hx => hsub x (hl x hx), hsum, hlen⟩

theorem reach_below (P : List Nat) (s : Nat) {a k : Nat} (ha : a < s)
    (h : Reach (P ++ [s]) a k) : Reach P a k := by
  obtain ⟨l, hl, hsum, hlen⟩ := h
  refine ⟨l, ?_, hsum, hlen⟩
  intro x hx
  rcases List.mem_append.mp (hl x hx) with h1 | h1
  · exact h1
  · rcases List.mem_singleton.mp h1 with rfl
    have : x ≤ l.sum := mem_le_sum hx
    omega

theorem reach_le (S : List Nat) (hpos : ∀ x ∈ S, 0 < x) {a k : Nat}
    (h : Reach S a k) : k ≤ a := by
  obtain ⟨l, hl, hsum, hlen⟩ := h
  have := length_le_sum_of_pos (fun x hx => hpos x (hl x hx))
  omega

/-! ## The DP invariant -/

/-- The invariant the two tables satisfy after the sizes of `S` have
been fully relaxed, stated over amounts `0..items`. -/
structure DPInv (S : List Nat) (items : Nat) (st : DPState) : Prop where
  bounded : ∀ a, a ≤ items → st.dp a ≤ items + 1
  zero_dp : st.dp 0 = 0
  zero_ch : st.choice 0 = 0
  sound : ∀ a, a ≤ items → st.dp a ≤ items → Reach S a (st.dp a)
  opt : ∀ a k, a ≤ items → Reach S a k → st.dp a ≤ k
  ptr : ∀ a, 0 < a → a ≤ items → st.dp a ≤ items →
    ∃ t, t ∈ S ∧ st.choice a = (t : Int) ∧ 0 < t ∧ t ≤ a ∧ st.dp (a - t) < st.dp a
  unreach : ∀ a, 0 < a → a ≤ items → st.dp a = items + 1 → st.choice a = -1

/-- The invariant during the inner relaxation loop of size `s`, with
amounts below the frontier `m` already relaxed. -/
structure InnerInv (P : List Nat) (s items m : Nat) (st : DPState) : Prop where
  bounded : ∀ a, a ≤ items → st.dp a ≤ items + 1
  zero_dp : st.dp 0 = 0
  zero_ch : st.choice 0 = 0
  sound : ∀ a, a ≤ items → st.dp a ≤ items → Reach (P ++ [s]) a (st.dp a)
  optLow : ∀ a k, a < m → a ≤ items → Reach (P ++ [s]) a k → st.dp a ≤ k
  optHigh : ∀ a k, m ≤ a → a ≤ items → Reach P a k → st.dp a ≤ k
  ptr : ∀ a, 0 < a → a ≤ items → st.dp a ≤ items →
    ∃ t, t ∈ P ++ [s] ∧ st.choice a = (t : Int) ∧ 0 < t ∧ t ≤ a ∧ st.dp (a - t) < st.dp a
  unreach : ∀ a, 0 < a → a ≤ items → st.dp a = items + 1 → st.choice a = -1

theorem dpStep_dp_le (s : Nat) (st : DPState) (m a : Nat) :
    (dpStep s st m).dp a ≤ st.dp a := by
  unfold dpStep
  by_cases hcond : st.dp (m - s) + 1 < st.dp m
  · rw [if_pos hcond]
    by_cases ha : a = m
    · subst ha; simp; omega
    · simp [ha]
  · rw [if_neg hcond]

theorem innerInv_start (P : List Nat) (s items : Nat) (st : DPState)
    (h : DPInv P items st) : InnerInv P s items s st where
  bounded := h.bounded
  zero_dp := h.zero_dp
  zero_ch := h.zero_ch
  sound := fun a ha hdp => reach_mono (by intro x hx; simp [hx]) (h.sound a ha hdp)
  optLow := fun a k ha hai hr => h.opt a k hai (reach_below P s ha hr)
  optHigh := fun a k _ hai hr => h.opt a k hai hr
  ptr := by
    intro a ha hai hdp
    obtain ⟨t, ht, hch, ht0, hta, hlt⟩ := h.ptr a ha hai hdp
    exact ⟨t, by simp [ht], hch, ht0, hta, hlt⟩
  unreach := h.unreach

theorem innerInv_step (P : List Nat) (s items m : Nat) (st : DPState)
    (h : InnerInv P s items m st) (hs : 0 < s) (hsm : s ≤ m) (hm : m ≤ items) :
    InnerInv P s items (m + 1) (dpStep s st m) := by
  have hm0 : 0 < m := lt_of_lt_of_le hs hsm
  have hs_mem : s ∈ P ++ [s] := by simp
  have hopt_m : ∀ k, Reach (P ++ [s]) m k → min (st.dp m) (st.dp (m - s) + 1) ≤ k := by
    intro k hr
    obtain ⟨l, hl, hsum, hlen⟩ := hr
    by_cases hsl : s ∈ l
    · have hperm := List.perm_cons_erase hsl
      have hsum' : (l.erase s).sum = m - s := by
        have := hperm.sum_eq
        simp only [List.sum_cons] at this
        omega
      have hlen' : (l.erase s).length = k - 1 := by
        have := hperm.length_eq
        simp only [List.length_cons] at this
        omega
      have hk1 : 1 ≤ k := by
        have := hperm.length_eq
        simp only [List.length_cons] at this
        omega
      have hr' : Reach (P ++ [s]) (m - s) (k - 1) :=
        ⟨l.erase s, fun x hx => hl x (List.erase_subset _ _ hx), hsum', hlen'⟩
      have hle := h.optLow (m - s) (k - 1) (by omega) (by omega) hr'
      omega
    · have hlP : ∀ x ∈ l, x ∈ P := by
        intro x hx
        rcases List.mem_append.mp (hl x hx) with h1 | h1
        · exact h1
        · rcases List.mem_singleton.mp h1 with rfl
          exact absurd hx hsl
      have := h.optHigh m k le_rfl hm ⟨l, hlP, hsum, hlen⟩
      omega
  unfold dpStep
  by_cases hcond : st.dp (m - s) + 1 < st.dp m
  · rw [if_pos hcond]
    have hvle : st.dp (m - s) + 1 ≤ items := by
      have := h.bounded m hm
      omega
    refine ⟨?_, ?_, ?_, ?_, ?_, ?_, ?_, ?_⟩
    · intro a ha
      dsimp only
      by_cases hma : a = m
      · rw [if_pos hma]; omega
      · rw [if_neg hma]; exact h.bounded a ha
    · dsimp only
      rw [if_neg (by omega : ¬ (0 : Nat) = m)]
      exact h.zero_dp
    · dsimp only
      rw [if_neg (by omega : ¬ (0 : Nat) = m)]
      exact h.zero_ch
    · intro a ha hdp
      dsimp only at hdp ⊢
      by_cases hma : a = m
      · subst hma
        rw [if_pos rfl]
        have hdpms : st.dp (a - s) ≤ items := by omega
        exact reach_sub _ hs_mem hsm (h.sound (a - s) (by omega) hdpms)
      · rw [if_neg hma] at hdp ⊢
        exact h.sound a ha hdp
    · intro a k ha hai hr
      dsimp only
      by_cases hma : a = m
      · subst hma
        rw [if_pos rfl]
        have := hopt_m k hr
        omega
      · rw [if_neg hma]
        exact h.optLow a k (by omega) hai hr
    · intro a k ha hai hr
      dsimp only
      have hma : ¬ a = m := by omega
      rw [if_neg hma]
      exact h.optHigh a k (by omega) hai hr
    · intro a ha hai hdp
      dsimp only at hdp ⊢
      by_cases hma : a = m
      · subst hma
        refine ⟨s, hs_mem, ?_, hs, hsm, ?_⟩
        · rw [if_pos rfl]
        · rw [if_neg (by omega : ¬ a - s = a), if_pos rfl]
          omega
      · rw [if_neg hma] at hdp
        obtain ⟨t, htmem, hch, ht0, hta, hlt⟩ := h.ptr a ha hai hdp
        refine ⟨t, htmem, ?_, ht0, hta, ?_⟩
        · rw [if_neg hma]; exact hch
        · rw [if_neg hma]
          by_cases hms : a - t = m
          · rw [if_pos hms]
            rw [hms] at hlt
            omega
          · rw [if_neg hms]; exact hlt
    · intro a ha hai hdp
      dsimp only at hdp ⊢
      by_cases hma : a = m
      · subst hma
        rw [if_pos rfl] at hdp
        omega
      · rw [if_neg hma] at hdp
        rw [if_neg hma]
        exact h.unreach a ha hai hdp
  · rw [if_neg hcond]
    refine ⟨h.bounded, h.zero_dp, h.zero_ch, h.sound, ?_, ?_, h.ptr, h.unreach⟩
    · intro a k ha hai hr
      by_cases hma : a = m
      · subst hma
        have := hopt_m k hr
        omega
      · exact h.optLow a k (by omega) hai hr
    · intro a k ha hai hr
      exact h.optHigh a k (by omega) hai hr

theorem innerInv_finish (P : List Nat) (s items m : Nat) (st : DPState)
    (h : InnerInv P s items m st) (hm : items < m) : DPInv (P ++ [s]) items st where
  bounded := h.bounded
  zero_dp := h.zero_dp
  zero_ch := h.zero_ch
  sound := h.sound
  opt := fun a k ha hr => h.optLow a k (by omega) ha hr
  ptr := h.ptr
  unreach := h.unreach

theorem innerInv_fold (P : List Nat) (s items : Nat) (hs : 0 < s) :
    ∀ (n m : Nat) (st : DPState), s ≤ m → m + n = items + 1 →
      InnerInv P s items m st →
      InnerInv P s items (items + 1) ((List.range' m n).foldl (dpStep s) st) := by
  intro n
  induction n with
  | zero =>
    intro m st _ hmn h
    have : m = items + 1 := by omega
    subst this
    simpa [List.range'] using h
  | succ n ih =>
    intro m st hsm hmn h
    have hm : m ≤ items := by omega
    have hstep := innerInv_step P s items m st h hs hsm hm
    have : List.range' m (n + 1) = m :: List.range' (m + 1) n := rfl
    rw [this, List.foldl_cons]
    exact ih (m + 1) (dpStep s st m) (by omega) (by omega) hstep

theorem relaxSize_inv (P : List Nat) (items s : Nat) (st : DPState)
    (h : DPInv P items st) (hs : 0 < s) : DPInv (P ++ [s]) items (relaxSize items s st) := by
  unfold relaxSize
  by_cases hsi : s ≤ items
  · exact innerInv_finish P s items (items + 1) _
      (innerInv_fold P s items hs (items + 1 - s) s st le_rfl (by omega)
        (innerInv_start P s items st h)) (by omega)
  · have hzero : items + 1 - s = 0 := by omega
    rw [hzero]
    have : (List.range' s 0).foldl (dpStep s) st = st := rfl
    rw [this]
    exact innerInv_finish P s items s st (innerInv_start P s items st h) (by omega)

theorem dpInv_init (items : Nat) : DPInv [] items (initState items) where
  bounded := by
    intro a _
    unfold initState
    dsimp only
    by_cases ha : a = 0 <;> simp [ha]
  zero_dp := rfl
  zero_ch := rfl
  sound := by
    intro a ha hdp
    unfold initState at hdp ⊢
    dsimp only at hdp ⊢
    by_cases ha0 : a = 0
    · subst ha0
      simpa using reach_nil []
    · rw [if_neg ha0] at hdp
      omega
  opt := by
    intro a k _ hr
    obtain ⟨l, hl, hsum, hlen⟩ := hr
    have hnil : l = [] := by
      cases l with
      | nil => rfl
      | cons x l => exact absurd (hl x (List.mem_cons_self x l)) (by simp)
    subst hnil
    simp only [List.sum_nil, List.length_nil] at hsum hlen
    unfold initState
    dsimp only
    simp [← hsum, ← hlen]
  ptr := by
    intro a ha hai hdp
    unfold initState at hdp
    dsimp only at hdp
    rw [if_neg (by omega : ¬ a = 0)] at hdp
    omega
  unreach := by
    intro a ha _ _
    unfold initState
    dsimp only
    rw [if_neg (by omega : ¬ a = 0)]

theorem runDP_inv_aux (items : Nat) :
    ∀ (rest P : List Nat) (st : DPState), DPInv P items st → (∀ x ∈ rest, 0 < x) →
      DPInv (P ++ rest) items (rest.foldl (fun st s => relaxSize items s st) st) := by
  intro rest
  induction rest with
  | nil =>
    intro P st h _
    simpa using h
  | cons s rest ih =>
    intro P st h hpos
    rw [List.foldl_cons]
    have hstep := relaxSize_inv P items s st h (hpos s (List.mem_cons_self s rest))
    have := ih (P ++ [s]) _ hstep (fun x hx => hpos x (List.mem_cons_of_mem _ hx))
    simpa [List.append_assoc] using this

theorem runDP_inv (items : Nat) (S : List Nat) (hpos : ∀ x ∈ S, 0 < x) :
    DPInv S items (runDP items S) := by
  have := runDP_inv_aux items S [] (initState items) (dpInv_init items) hpos
  simpa using this

/-! ## Reconstruction -/

theorem totalPacks_bump (d : List (Nat × Nat)) (s : Nat) :
    totalPacks (bump d s) = totalPacks d + 1 := by
  induction d with
  | nil => simp [bump, totalPacks]
  | cons p rest ih =>
    obtain ⟨a, c⟩ := p
    by_cases has : a = s
    · simp [bump, has, totalPacks]
      omega
    · simp only [bump, if_neg has, totalPacks, List.map_cons, List.sum_cons]
      unfold totalPacks at ih
      omega

theorem totalItems_bump (d : List (Nat × Nat)) (s : Nat) :
    totalItems (bump d s) = totalItems d + s := by
  induction d with
  | nil => simp [bump, totalItems]
  | cons p rest ih =>
    obtain ⟨a, c⟩ := p
    by_cases has : a = s
    · subst has
      have hb : bump ((a, c) :: rest) a =
          if a = a then (a, c + 1) :: rest else (a, c) :: bump rest a := rfl
      rw [if_pos rfl] at hb
      rw [hb]
      simp only [totalItems, List.map_cons, List.sum_cons, Nat.mul_add, Nat.mul_one]
      omega
    · simp only [bump, if_neg has, totalItems, List.map_cons, List.sum_cons]
      unfold totalItems at ih
      omega

theorem keysOf_bump (d : List (Nat × Nat)) (s : Nat) :
    ∀ k ∈ keysOf (bump d s), k = s ∨ k ∈ keysOf d := by
  induction d with
  | nil => simp [bump, keysOf]
  | cons p rest ih =>
    obtain ⟨a, c⟩ := p
    intro k hk
    by_cases has : a = s
    · subst has
      simp only [bump, if_pos rfl, keysOf, List.map_cons] at hk
      simp only [keysOf, List.map_cons]
      rcases List.mem_cons.mp hk with rfl | hk
      · exact Or.inr (List.mem_cons_self _ _)
      · exact Or.inr (List.mem_cons_of_mem _ hk)
    · simp only [bump, if_neg has, keysOf, List.map_cons] at hk
      simp only [keysOf, List.map_cons]
      rcases List.mem_cons.mp hk with rfl | hk
      · exact Or.inr (List.mem_cons_self _ _)
      · rcases ih k hk with h1 | h1
        · exact Or.inl h1
        · exact Or.inr (List.mem_cons_of_mem _ h1)

theorem reconstruct_error_eq (c : Nat → Int) :
    ∀ (fuel r : Nat) (acc : List (Nat × Nat)) (e : CalcError),
      reconstruct c fuel r acc = .error e → e = .cannotFulfill := by
  intro fuel
  induction fuel with
  | zero =>
    intro r acc e h
    unfold reconstruct at h
    by_cases hr : r = 0
    · rw [if_pos hr] at h; cases h
    · rw [if_neg hr] at h; cases h; rfl
  | succ fuel ih =>
    intro r acc e h
    unfold reconstruct at h
    by_cases hr : r = 0
    · rw [if_pos hr] at h; cases h
    · rw [if_neg hr] at h
      by_cases hc : c r ≤ 0
      · rw [if_pos hc] at h; cases h; rfl
      · rw [if_neg hc] at h
        exact ih _ _ _ h

theorem reconstruct_ok (S : List Nat) (items : Nat) (st : DPState)
    (hinv : DPInv S items st) :
    ∀ (fuel r : Nat) (acc : List (Nat × Nat)), r ≤ fuel → r ≤ items → st.dp r ≤ items →
      ∃ d, reconstruct st.choice fuel r acc = .ok d ∧
        totalPacks d = totalPacks acc + st.dp r ∧
        totalItems d = totalItems acc + r ∧
        ∀ k ∈ keysOf d, k ∈ keysOf acc ∨ k ∈ S := by
  intro fuel
  induction fuel with
  | zero =>
    intro r acc hrf _ _
    have hr0 : r = 0 := by omega
    subst hr0
    refine ⟨acc, by simp [reconstruct], ?_, ?_, fun k hk => Or.inl hk⟩
    · rw [hinv.zero_dp]; omega
    · simp
  | succ fuel ih =>
    intro r acc hrf hri hdp
    by_cases hr0 : r = 0
    · subst hr0
      refine ⟨acc, by simp [reconstruct], ?_, ?_, fun k hk => Or.inl hk⟩
      · rw [hinv.zero_dp]; omega
      · simp
    · obtain ⟨t, htS, hch, ht0, htr, hlt⟩ := hinv.ptr r (by omega) hri hdp
      have hdpt : st.dp (r - t) ≤ items := by omega
      have hreq : st.dp r = st.dp (r - t) + 1 := by
        have hsound := hinv.sound (r - t) (by omega) hdpt
        have hup := hinv.opt r (st.dp (r - t) + 1) hri (reach_sub S htS htr hsound)
        omega
      have hstep : reconstruct st.choice (fuel + 1) r acc =
          reconstruct st.choice fuel (r - t) (bump acc t) := by
        rw [show reconstruct st.choice (fuel + 1) r acc =
            (if r = 0 then Except.ok acc
              else if st.choice r ≤ 0 then Except.error CalcError.cannotFulfill
              else reconstruct st.choice fuel (r - (st.choice r).toNat)
                (bump acc (st.choice r).toNat)) from rfl]
        rw [if_neg hr0, hch]
        rw [if_neg (by exact_mod_cast Nat.not_le.mpr ht0 : ¬ ((t : Int) ≤ 0))]
        rw [Int.toNat_natCast]
      obtain ⟨d, hd, hp, hi, hk⟩ :=
        ih (r - t) (bump acc t) (by omega) (by omega) hdpt
      refine ⟨d, by rw [hstep]; exact hd, ?_, ?_, ?_⟩
      · rw [hp, totalPacks_bump]
        omega
      · rw [hi, totalItems_bump]
        omega
      · intro k hkd
        rcases hk k hkd with h1 | h1
        · rcases keysOf_bump acc t k h1 with rfl | h1
          · exact Or.inr htS
          · exact Or.inl h1
        · exact Or.inr h1

/-! ## Path analysis of CalculatePacks -/

theorem sizesN_pos (norm : List Int) (hpos : ∀ x ∈ norm, 0 < x) :
    ∀ t ∈ norm.map Int.toNat, 0 < t := by
  intro t ht
  obtain ⟨y, hy, rfl⟩ := List.mem_map.mp ht
  have := hpos y hy
  omega

theorem mem_sizesN (norm : List Int) (hpos : ∀ x ∈ norm, 0 < x) (t : Nat) :
    t ∈ norm.map Int.toNat ↔ (t : Int) ∈ norm := by
  constructor
  · intro ht
    obtain ⟨y, hy, rfl⟩ := List.mem_map.mp ht
    have hy0 := hpos y hy
    rwa [Int.toNat_of_nonneg (le_of_lt hy0)]
  · intro ht
    exact List.mem_map.mpr ⟨(t : Int), ht, Int.toNat_natCast t⟩

theorem calculatePacks_items_neg (N : Int) (S : List Int) (hN : N < 0) :
    CalculatePacks N S = .error .invalidItems := by
  unfold CalculatePacks
  rw [if_pos hN]

theorem calculatePacks_norm_err (N : Int) (S : List Int) (hN : ¬ N < 0) (e : CalcError)
    (herr : normalizePackSizes S = .error e) : CalculatePacks N S = .error e := by
  unfold CalculatePacks
  rw [if_neg hN, herr]

theorem calculatePacks_zero_ok (S norm : List Int)
    (hnorm : normalizePackSizes S = .ok norm) : CalculatePacks 0 S = .ok [] := by
  unfold CalculatePacks
  rw [if_neg (by omega : ¬ (0 : Int) < 0), hnorm]
  dsimp only
  rw [if_pos rfl]

theorem calculatePacks_eq_head_err (N : Int) (S norm : List Int) (hN : 0 < N)
    (hnorm : normalizePackSizes S = .ok norm) (hhead : N < norm.headD 0) :
    CalculatePacks N S = .error .cannotFulfill := by
  unfold CalculatePacks
  rw [if_neg (by omega : ¬ N < 0), hnorm]
  dsimp only
  rw [if_neg (by omega : ¬ N = 0), if_pos hhead]

theorem calculatePacks_eq_pos (N : Int) (S norm : List Int) (hN : 0 < N)
    (hnorm : normalizePackSizes S = .ok norm) (hhead : ¬ N < norm.headD 0) :
    CalculatePacks N S =
      (if (runDP N.toNat (norm.map Int.toNat)).choice N.toNat = -1
        then .error .cannotFulfill
        else reconstruct (runDP N.toNat (norm.map Int.toNat)).choice N.toNat N.toNat []) := by
  unfold CalculatePacks
  rw [if_neg (by omega : ¬ N < 0), hnorm]
  dsimp only
  rw [if_neg (by omega : ¬ N = 0), if_neg hhead]

theorem calculatePacks_ok_char (N : Int) (S norm : List Int) (d : List (Nat × Nat))
    (hnorm : normalizePackSizes S = .ok norm)
    (hok : CalculatePacks N S = .ok d) :
    0 ≤ N ∧ (totalItems d : Int) = N ∧
      (∀ k ∈ keysOf d, (k : Int) ∈ norm) ∧
      (∀ l : List Nat, (∀ x ∈ l, x ∈ norm.map Int.toNat) → l.sum = N.toNat →
        totalPacks d ≤ l.length) := by
  obtain ⟨hne, hnd, hsorted, hpos, hmem, hlenN⟩ := normalize_ok_props S norm hnorm
  by_cases hNneg : N < 0
  · rw [calculatePacks_items_neg N S hNneg] at hok
    cases hok
  by_cases hN0 : N = 0
  · subst hN0
    rw [calculatePacks_zero_ok S norm hnorm] at hok
    cases hok
    refine ⟨le_refl 0, by simp [totalItems], by simp [keysOf], ?_⟩
    intro l _ _
    simp [totalPacks]
  · have hNpos : 0 < N := by omega
    by_cases hhead : N < norm.headD 0
    · rw [calculatePacks_eq_head_err N S norm hNpos hnorm hhead] at hok
      cases hok
    · rw [calculatePacks_eq_pos N S norm hNpos hnorm hhead] at hok
      have hTpos := sizesN_pos norm hpos
      have hinv := runDP_inv N.toNat (norm.map Int.toNat) hTpos
      by_cases hch : (runDP N.toNat (norm.map Int.toNat)).choice N.toNat = -1
      · rw [if_pos hch] at hok
        cases hok
      · rw [if_neg hch] at hok
        have hdpn : (runDP N.toNat (norm.map Int.toNat)).dp N.toNat ≤ N.toNat := by
          have hb := hinv.bounded N.toNat le_rfl
          by_cases hd : (runDP N.toNat (norm.map Int.toNat)).dp N.toNat = N.toNat + 1
          · exact absurd (hinv.unreach N.toNat (by omega) le_rfl hd) hch
          · omega
        obtain ⟨d', hd', hp, hi, hk⟩ :=
          reconstruct_ok (norm.map Int.toNat) N.toNat _ hinv N.toNat N.toNat []
            le_rfl le_rfl hdpn
        rw [hd'] at hok
        injection hok with heq
        subst heq
        refine ⟨by omega, ?_, ?_, ?_⟩
        · have htot : totalItems d' = N.toNat := by
            rw [hi]
            simp [totalItems]
          rw [htot]
          omega
        · intro k hkd
          rcases hk k hkd with h1 | h1
          · simp [keysOf] at h1
          · exact (mem_sizesN norm hpos k).mp h1
        · intro l hl hsum
          have hr : Reach (norm.map Int.toNat) N.toNat l.length := ⟨l, hl, hsum, rfl⟩
          have := hinv.opt N.toNat l.length le_rfl hr
          rw [hp]
          simp only [totalPacks, List.map_nil, List.sum_nil]
          omega

theorem calculatePacks_cannotFulfill_iff (N : Int) (S norm : List Int) (hN : 0 < N)
    (hnorm : normalizePackSizes S = .ok norm) :
    (CalculatePacks N S = .error .cannotFulfill ↔
      ¬ Feasible (norm.map Int.toNat) N.toNat) := by
  obtain ⟨hne, hnd, hsorted, hpos, hmem, hlenN⟩ := normalize_ok_props S norm hnorm
  have hTpos := sizesN_pos norm hpos
  have hinv := runDP_inv N.toNat (norm.map Int.toNat) hTpos
  by_cases hhead : N < norm.headD 0
  · rw [calculatePacks_eq_head_err N S norm hN hnorm hhead]
    refine iff_of_true rfl ?_
    rintro ⟨k, l, hl, hsum, hlen⟩
    have hn0 : 0 < N.toNat := by omega
    cases l with
    | nil => simp at hsum; omega
    | cons x l =>
      have hx : x ∈ norm.map Int.toNat := hl x (List.mem_cons_self x l)
      have hxmem : (x : Int) ∈ norm := (mem_sizesN norm hpos x).mp hx
      have hxle : x ≤ (x :: l).sum := mem_le_sum (List.mem_cons_self x l)
      obtain ⟨h0, rest⟩ : ∃ h0 rest, norm = h0 :: rest := by
        cases norm with
        | nil => exact absurd rfl hne
        | cons h0 rest => exact ⟨h0, rest, rfl⟩
      obtain ⟨rest, rfl⟩ := rest
      have hh0 : h0 ≤ (x : Int) := by
        rcases List.mem_cons.mp hxmem with rfl | hxr
        · exact le_refl _
        · exact List.rel_of_sorted_cons hsorted _ hxr
      simp only [List.headD_cons] at hhead
      have : (x : Int) ≤ (N.toNat : Int) := by exact_mod_cast hxle.trans hsum.le
      omega
  · rw [calculatePacks_eq_pos N S norm hN hnorm hhead]
    by_cases hch : (runDP N.toNat (norm.map Int.toNat)).choice N.toNat = -1
    · rw [if_pos hch]
      refine iff_of_true rfl ?_
      rintro ⟨k, hr⟩
      have hkle : k ≤ N.toNat := reach_le _ hTpos hr
      have hdple := hinv.opt N.toNat k le_rfl hr
      obtain ⟨t, _, hcht, ht0, _, _⟩ :=
        hinv.ptr N.toNat (by omega) le_rfl (by omega)
      rw [hch] at hcht
      omega
    · rw [if_neg hch]
      have hdpn : (runDP N.toNat (norm.map Int.toNat)).dp N.toNat ≤ N.toNat := by
        have hb := hinv.bounded N.toNat le_rfl
        by_cases hd : (runDP N.toNat (norm.map Int.toNat)).dp N.toNat = N.toNat + 1
        · exact absurd (hinv.unreach N.toNat (by omega) le_rfl hd) hch
        · omega
      obtain ⟨d, hd, _, _, _⟩ :=
        reconstruct_ok (norm.map Int.toNat) N.toNat _ hinv N.toNat N.toNat []
          le_rfl le_rfl hdpn
      rw [hd]
      refine iff_of_false (by intro h; cases h) ?_
      intro hnf
      exact hnf ⟨_, hinv.sound N.toNat le_rfl hdpn⟩

theorem calculatePacks_invalid_iff (N : Int) (S : List Int) (hN : 0 ≤ N) :
    CalculatePacks N S = .error .invalidPackSizes ↔ InvalidSizes S := by
  cases hres : normalizePackSizes S with
  | error e =>
    obtain ⟨he, hinv⟩ := (normalize_error_iff S e).mp hres
    subst he
    rw [calculatePacks_norm_err N S (by omega) _ hres]
    exact iff_of_true rfl hinv
  | ok norm =>
    have hconds := (normalize_ok_iff S norm).mp hres
    have hnotinv : ¬ InvalidSizes S := by
      rw [invalidSizes_iff_not_ok]
      intro h
      exact h ⟨hconds.1, hconds.2.1, hconds.2.2.1⟩
    by_cases hN0 : N = 0
    · subst hN0
      rw [calculatePacks_zero_ok S norm hres]
      exact iff_of_false (by intro h; cases h) hnotinv
    · have hNpos : 0 < N := by omega
      by_cases hhead : N < norm.headD 0
      · rw [calculatePacks_eq_head_err N S norm hNpos hres hhead]
        exact iff_of_false (by intro h; cases h) hnotinv
      · rw [calculatePacks_eq_pos N S norm hNpos hres hhead]
        by_cases hch : (runDP N.toNat (norm.map Int.toNat)).choice N.toNat = -1
        · rw [if_pos hch]
          exact iff_of_false (by intro h; cases h) hnotinv
        · rw [if_neg hch]
          cases hrec : reconstruct (runDP N.toNat (norm.map Int.toNat)).choice
              N.toNat N.toNat [] with
          | ok d => exact iff_of_false (by intro h; cases h) hnotinv
          | error e =>
            have he := reconstruct_error_eq _ _ _ _ _ hrec
            subst he
            exact iff_of_false (by intro h; cases h) hnotinv

/-! ## Counts assignments versus pack multisets -/

theorem sum_map_split (T : List Nat) (F G : Nat → Nat) :
    (T.map (fun t => F t + G t)).sum = (T.map F).sum + (T.map G).sum := by
  induction T with
  | nil => simp
  | cons a T ih =>
    simp only [List.map_cons, List.sum_cons, ih]
    omega

theorem sum_indicator (g : Nat → Nat) :
    ∀ T : List Nat, T.Nodup → ∀ a ∈ T,
      (T.map (fun t => if a = t then g t else 0)).sum = g a := by
  intro T
  induction T with
  | nil => intro _ a ha; cases ha
  | cons b T ih =>
    intro hnd a ha
    rcases List.mem_cons.mp ha with rfl | haT
    · simp only [List.map_cons, List.sum_cons, if_pos rfl]
      have hnotin : a ∉ T := (List.nodup_cons.mp hnd).1
      have hzero : (T.map (fun t => if a = t then g t else 0)).sum = 0 := by
        apply List.sum_eq_zero
        intro x hx
        obtain ⟨t, ht, rfl⟩ := List.mem_map.mp hx
        rw [if_neg]
        rintro rfl
        exact hnotin ht
      rw [hzero]
      simp
    · have hab : ¬ (a = b) := by
        rintro rfl
        exact (List.nodup_cons.mp hnd).1 haT
      simp only [List.map_cons, List.sum_cons, if_neg hab]
      rw [ih (List.nodup_cons.mp hnd).2 a haT]
      omega

theorem count_sum_eq (T : List Nat) (hnd : T.Nodup) :
    ∀ l : List Nat, (∀ x ∈ l, x ∈ T) →
      (T.map (fun t => t * l.count t)).sum = l.sum ∧
        (T.map (fun t => l.count t)).sum = l.length := by
  intro l
  induction l with
  | nil =>
    intro _
    constructor
    · apply List.sum_eq_zero
      intro x hx
      obtain ⟨t, _, rfl⟩ := List.mem_map.mp hx
      simp
    · apply List.sum_eq_zero
      intro x hx
      obtain ⟨t, _, rfl⟩ := List.mem_map.mp hx
      simp
  | cons a l ih =>
    intro hmem
    have haT : a ∈ T := hmem a (List.mem_cons_self a l)
    obtain ⟨ih1, ih2⟩ := ih fun x hx => hmem x (List.mem_cons_of_mem _ hx)
    constructor
    · have hfun : ∀ t ∈ T, t * ((a :: l).count t) = t * l.count t + (if a = t then t else 0) := by
        intro t _
        rw [List.count_cons]
        by_cases hta : a = t
        · rw [if_pos (by simpa using hta), if_pos hta]
          ring
        · rw [if_neg (by simpa using hta), if_neg hta]
          ring
      rw [List.map_congr_left hfun, sum_map_split, ih1,
        sum_indicator (fun t => t) T hnd a haT]
      simp only [List.sum_cons]
      omega
    · have hfun : ∀ t ∈ T, (a :: l).count t = l.count t + (if a = t then 1 else 0) := by
        intro t _
        rw [List.count_cons]
        by_cases hta : a = t
        · rw [if_pos (by simpa using hta), if_pos hta]
        · rw [if_neg (by simpa using hta), if_neg hta]
      rw [List.map_congr_left hfun, sum_map_split, ih2,
        sum_indicator (fun _ => 1) T hnd a haT]
      simp only [List.length_cons]

theorem comboItems_eq (S : List Int) (hpos : ∀ x ∈ S, 0 < x) (f : Int → Nat) :
    comboItems S f =
      (((S.map Int.toNat).map (fun t : Nat => t * f (t : Int))).sum : Int) := by
  induction S with
  | nil => simp [comboItems]
  | cons s S ih =>
    have hs := hpos s (List.mem_cons_self s S)
    have ihs := ih fun x hx => hpos x (List.mem_cons_of_mem _ hx)
    have hcast : ((s.toNat : Nat) : Int) = s := Int.toNat_of_nonneg hs.le
    simp only [comboItems, List.map_cons, List.sum_cons] at ihs ⊢
    rw [Nat.cast_add, Nat.cast_mul, hcast, ihs]

theorem comboPacks_eq (S : List Int) (hpos : ∀ x ∈ S, 0 < x) (f : Int → Nat) :
    comboPacks S f = ((S.map Int.toNat).map (fun t : Nat => f (t : Int))).sum := by
  induction S with
  | nil => simp [comboPacks]
  | cons s S ih =>
    have hs := hpos s (List.mem_cons_self s S)
    have ihs := ih fun x hx => hpos x (List.mem_cons_of_mem _ hx)
    have hcast : ((s.toNat : Nat) : Int) = s := Int.toNat_of_nonneg hs.le
    simp only [comboPacks, List.map_cons, List.sum_cons] at ihs ⊢
    rw [hcast, ihs]

theorem combo_to_list (S : List Int) (hpos : ∀ x ∈ S, 0 < x) (f : Int → Nat) :
    ∃ l : List Nat, (∀ x ∈ l, x ∈ S.map Int.toNat) ∧
      (l.sum : Int) = comboItems S f ∧ l.length = comboPacks S f := by
  induction S with
  | nil => exact ⟨[], by simp, by simp [comboItems], by simp [comboPacks]⟩
  | cons s S ih =>
    have hs := hpos s (List.mem_cons_self s S)
    obtain ⟨l, hl, hsum, hlen⟩ := ih fun x hx => hpos x (List.mem_cons_of_mem _ hx)
    refine ⟨List.replicate (f s) s.toNat ++ l, ?_, ?_, ?_⟩
    · intro x hx
      rcases List.mem_append.mp hx with hx | hx
      · rw [List.eq_of_mem_replicate hx]
        exact List.mem_map.mpr ⟨s, List.mem_cons_self s S, rfl⟩
      · simp only [List.map_cons]
        exact List.mem_cons_of_mem _ (hl x hx)
    · have hcast : ((s.toNat : Nat) : Int) = s := Int.toNat_of_nonneg hs.le
      have h1 : (List.replicate (f s) s.toNat ++ l).sum = f s * s.toNat + l.sum := by
        simp [List.sum_replicate, smul_eq_mul]
      rw [h1, Nat.cast_add, Nat.cast_mul, hcast]
      simp only [comboItems, List.map_cons, List.sum_cons]
      simp only [comboItems] at hsum
      rw [hsum]
      ring
    · simp only [List.length_append, List.length_replicate, comboPacks,
        List.map_cons, List.sum_cons]
      unfold comboPacks at hlen
      omega

theorem list_to_combo (S : List Int) (hnd : S.Nodup) (hpos : ∀ x ∈ S, 0 < x)
    (l : List Nat) (hl : ∀ x ∈ l, x ∈ S.map Int.toNat) :
    ∃ f : Int → Nat, comboItems S f = (l.sum : Int) ∧ comboPacks S f = l.length := by
  have hndT : (S.map Int.toNat).Nodup := by
    refine List.Nodup.map_on ?_ hnd
    intro x hx y hy hxy
    have hx0 := hpos x hx
    have hy0 := hpos y hy
    omega
  refine ⟨fun s => l.count s.toNat, ?_, ?_⟩
  · rw [comboItems_eq S hpos]
    have hcnt : ∀ t ∈ S.map Int.toNat, t * l.count ((t : Int)).toNat = t * l.count t := by
      intro t _
      rw [Int.toNat_natCast]
    rw [List.map_congr_left hcnt, (count_sum_eq _ hndT l hl).1]
  · rw [comboPacks_eq S hpos]
    have hcnt : ∀ t ∈ S.map Int.toNat, l.count ((t : Int)).toNat = l.count t := by
      intro t _
      rw [Int.toNat_natCast]
    rw [List.map_congr_left hcnt, (count_sum_eq _ hndT l hl).2]

end PackCalc

/-! ## The store's validation agrees with the engine's -/

namespace PackStore

theorem collectUnique_rel (xs : List Int) :
    ∀ acc : List Int,
      collectUnique xs acc =
        match PackCalc.collectUnique xs acc with
        | .ok u => .ok u
        | .error _ => .error StorageError.invalidPackSizes := by
  induction xs with
  | nil => intro acc; rfl
  | cons x xs ih =>
    intro acc
    by_cases hx : x ≤ 0
    · simp [collectUnique, PackCalc.collectUnique, hx]
    · by_cases hlen : (10 : Nat) < (if x ∈ acc then acc else acc ++ [x]).length
      · simp [collectUnique, PackCalc.collectUnique, hx, hlen, maxPackSizes,
          PackCalc.maxPackSizes]
      · have h1 : collectUnique (x :: xs) acc =
            collectUnique xs (if x ∈ acc then acc else acc ++ [x]) := by
          simp [collectUnique, hx, maxPackSizes, hlen]
        have h2 : PackCalc.collectUnique (x :: xs) acc =
            PackCalc.collectUnique xs (if x ∈ acc then acc else acc ++ [x]) := by
          simp [PackCalc.collectUnique, hx, PackCalc.maxPackSizes, hlen]
        rw [h1, h2]
        exact ih _

theorem normalize_rel (xs : List Int) :
    normalizePackSizes xs =
      match PackCalc.normalizePackSizes xs with
      | .ok u => .ok u
      | .error _ => .error StorageError.invalidPackSizes := by
  unfold normalizePackSizes PackCalc.normalizePackSizes
  by_cases hlen : xs.length = 0
  · rw [if_pos hlen, if_pos hlen]
  · rw [if_neg hlen, if_neg hlen, collectUnique_rel xs []]
    cases PackCalc.collectUnique xs [] with
    | ok u => rfl
    | error e => rfl

theorem normalize_agree_ok (xs l : List Int) :
    normalizePackSizes xs = .ok l ↔ PackCalc.normalizePackSizes xs = .ok l := by
  rw [normalize_rel xs]
  cases PackCalc.normalizePackSizes xs with
  | ok u =>
    constructor
    · intro h; cases h; rfl
    · intro h; cases h; rfl
  | error e =>
    constructor
    · intro h; cases h
    · intro h; cases h

theorem normalize_agree_err (xs : List Int) :
    normalizePackSizes xs = .error .invalidPackSizes ↔
      (∃ e, PackCalc.normalizePackSizes xs = .error e) := by
  rw [normalize_rel xs]
  cases PackCalc.normalizePackSizes xs with
  | ok u =>
    constructor
    · intro h; cases h
    · rintro ⟨e, he⟩; cases he
  | error e =>
    exact ⟨fun _ => ⟨e, rfl⟩, fun _ => rfl⟩

theorem normalize_invalid (xs : List Int) (h : PackCalc.InvalidSizes xs) :
    normalizePackSizes xs = .error .invalidPackSizes := by
  have := (PackCalc.normalize_error_iff xs PackCalc.CalcError.invalidPackSizes).mpr ⟨rfl, h⟩
  exact (normalize_agree_err xs).mpr ⟨_, this⟩

theorem sorted_lt_of_sorted_le_nodup {l : List Int}
    (hs : l.Sorted (· ≤ ·)) (hnd : l.Nodup) : l.Sorted (· < ·) :=
  (List.Pairwise.and hs hnd).imp fun hab => lt_of_le_of_ne hab.1 hab.2

theorem setPackSizes_snd (sizes st : List Int) :
    (SetPackSizes sizes st).2 = st ∨
      ∃ norm, normalizePackSizes sizes = .ok norm ∧
        (SetPackSizes sizes st).2 = norm := by
  unfold SetPackSizes
  cases hres : normalizePackSizes sizes with
  | error e => exact Or.inl rfl
  | ok norm => exact Or.inr ⟨norm, rfl, rfl⟩

theorem cloneAndSort_sorted (src : List Int) : (cloneAndSort src).Sorted (· ≤ ·) := by
  unfold cloneAndSort
  by_cases h : src.length = 0
  · simp [h]
  · rw [if_neg h]
    exact List.sorted_insertionSort _ _

theorem readCell_append_self (h : List (List Int)) (v : List Int) :
    readCell (h ++ [v]) h.length = v := by
  induction h with
  | nil => rfl
  | cons a h ih => simp [readCell] at ih ⊢

theorem readCell_append_lt (h : List (List Int)) (v : List Int) (r : Nat)
    (hr : r < h.length) : readCell (h ++ [v]) r = readCell h r := by
  unfold readCell
  exact List.getD_append h [v] [] r hr

theorem readCell_write_ne (h : List (List Int)) (r r' : Nat) (v : List Int)
    (hne : r ≠ r') : readCell (writeCell h r v) r' = readCell h r' := by
  unfold readCell writeCell
  rw [List.getD_eq_getElem?_getD, List.getD_eq_getElem?_getD, List.getElem?_set_ne hne]

end PackStore

/-! ## The claims -/

/-- C1: for every valid pack-size set `S` and every item count `N` for which
`CalculatePacks N S` succeeds with distribution `d`, the total pack count of
`d` is at most the total pack count of every mapping from members of `S` to
non-negative counts whose weighted sum equals `N`. -/
theorem spec_C1 (S : List Int) (N : Int) (d : List (Nat × Nat))
    (hS : PackCalc.ValidPackSizeSet S)
    (hok : PackCalc.CalculatePacks N S = .ok d)
    (f : Int → Nat) (hf : PackCalc.comboItems S f = N) :
    PackCalc.totalPacks d ≤ PackCalc.comboPacks S f := by
  obtain ⟨hne, hnd, hlen, hpos⟩ := hS
  have hnorm := PackCalc.normalize_valid S ⟨hne, hnd, hlen, hpos⟩
  obtain ⟨hN0, hitems, hkeys, hmin⟩ :=
    PackCalc.calculatePacks_ok_char N S _ d hnorm hok
  obtain ⟨l, hl, hsum, hlenl⟩ := PackCalc.combo_to_list S hpos f
  have hmemS := (PackCalc.normalize_ok_props S _ hnorm).2.2.2.2.1
  have hl' : ∀ x ∈ l, x ∈ (List.insertionSort (· ≤ ·) S).map Int.toNat := by
    intro x hx
    obtain ⟨y, hy, rfl⟩ := List.mem_map.mp (hl x hx)
    exact List.mem_map.mpr ⟨y, (hmemS y).mpr hy, rfl⟩
  have hsum' : l.sum = N.toNat := by
    rw [hf] at hsum
    omega
  have := hmin l hl' hsum'
  omega

/-- C1 witness: `S = [3, 5]`, `N = 11`, minimal distribution `{5 ↦ 1, 3 ↦ 2}`
(3 packs) versus the assignment `{3 ↦ 2, 5 ↦ 1}` itself. -/
theorem spec_C1_witness :
    PackCalc.totalPacks [(5, 1), (3, 2)] ≤
      PackCalc.comboPacks [3, 5] (fun s => if s = 3 then 2 else if s = 5 then 1 else 0) :=
  spec_C1 [3, 5] 11 [(5, 1), (3, 2)] (by decide) (by decide)
    (fun s => if s = 3 then 2 else if s = 5 then 1 else 0) (by decide)

/-- C2: whenever `CalculatePacks N S` succeeds on a valid pack-size set, the
weighted sum of the returned distribution equals `N` exactly and every key of
the distribution is a member of `S`. -/
theorem spec_C2 (S : List Int) (N : Int) (d : List (Nat × Nat))
    (hS : PackCalc.ValidPackSizeSet S)
    (hok : PackCalc.CalculatePacks N S = .ok d) :
    (PackCalc.totalItems d : Int) = N ∧
      ∀ k ∈ PackCalc.keysOf d, (k : Int) ∈ S := by
  obtain ⟨hne, hnd, hlen, hpos⟩ := hS
  have hnorm := PackCalc.normalize_valid S ⟨hne, hnd, hlen, hpos⟩
  obtain ⟨hN0, hitems, hkeys, hmin⟩ :=
    PackCalc.calculatePacks_ok_char N S _ d hnorm hok
  have hmemS := (PackCalc.normalize_ok_props S _ hnorm).2.2.2.2.1
  exact ⟨hitems, fun k hk => (hmemS _).mp (hkeys k hk)⟩

/-- C2 witness: `S = [3, 5]`, `N = 11`. -/
theorem spec_C2_witness :
    (PackCalc.totalItems [(5, 1), (3, 2)] : Int) = 11 ∧
      ∀ k ∈ PackCalc.keysOf [(5, 1), (3, 2)], (k : Int) ∈ ([3, 5] : List Int) :=
  spec_C2 [3, 5] 11 [(5, 1), (3, 2)] (by decide) (by decide)

/-- C4 counterexample: with the empty (hence invalid) pack-size set the zero
item count does not succeed; validation runs before the zero short-circuit,
so `CalculatePacks 0 []` is the `InvalidPackSizes` error, not an empty
distribution. -/
theorem spec_C4_counterexample :
    PackCalc.CalculatePacks 0 ([] : List Int) = .error .invalidPackSizes ∧
      PackCalc.CalculatePacks 0 ([] : List Int) ≠ .ok [] := by
  constructor
  · decide
  · decide

/-- C4 (amended): for every pack-size set that passes the engine's
validation, `CalculatePacks 0 S` succeeds and returns the empty
distribution. -/
theorem spec_C4 (S norm : List Int)
    (h : PackCalc.normalizePackSizes S = .ok norm) :
    PackCalc.CalculatePacks 0 S = .ok [] :=
  PackCalc.calculatePacks_zero_ok S norm h

/-- C4 witness: the valid set `[3, 5]`. -/
theorem spec_C4_witness : PackCalc.CalculatePacks 0 [3, 5] = .ok [] :=
  spec_C4 [3, 5] [3, 5] (by decide)

/-- C5: for non-negative `N`, `CalculatePacks N S` is the `InvalidPackSizes`
error exactly when `S` is empty, has a non-positive member, or has more than
10 distinct values after deduplication. -/
theorem spec_C5 (S : List Int) (N : Int) (hN : 0 ≤ N) :
    (PackCalc.CalculatePacks N S = .error .invalidPackSizes ↔
      PackCalc.InvalidSizes S) :=
  PackCalc.calculatePacks_invalid_iff N S hN

/-- C5 witness: a 12-element list with only two distinct values, which the
engine accepts. -/
theorem spec_C5_witness :
    (PackCalc.CalculatePacks 5 [1, 1, 1, 1, 1, 1, 1, 1, 1, 1, 1, 2] =
        .error .invalidPackSizes ↔
      PackCalc.InvalidSizes [1, 1, 1, 1, 1, 1, 1, 1, 1, 1, 1, 2]) :=
  spec_C5 [1, 1, 1, 1, 1, 1, 1, 1, 1, 1, 1, 2] 5 (by decide)

/-- C10: pack-size validation runs before the zero-item short-circuit, so an
invalid set makes even `CalculatePacks 0 S` fail with `InvalidPackSizes`,
while the negative-item check runs before validation, so a negative item
count yields `InvalidItems` even on an invalid set. -/
theorem spec_C10 (S : List Int) (n : Int) :
    (PackCalc.InvalidSizes S →
      PackCalc.CalculatePacks 0 S = .error .invalidPackSizes) ∧
    (n < 0 → PackCalc.CalculatePacks n S = .error .invalidItems) :=
  ⟨fun h => (PackCalc.calculatePacks_invalid_iff 0 S le_rfl).mpr h,
   fun h => PackCalc.calculatePacks_items_neg n S h⟩

/-- C10 witness: the invalid set `[0]` with item counts `0` and `-3`. -/
theorem spec_C10_witness :
    PackCalc.CalculatePacks 0 ([0] : List Int) = .error .invalidPackSizes ∧
      PackCalc.CalculatePacks (-3) ([0] : List Int) = .error .invalidItems :=
  ⟨(spec_C10 [0] (-3)).1 (by decide), (spec_C10 [0] (-3)).2 (by decide)⟩

/-- C3: for every valid pack-size set and every non-negative item count,
`CalculatePacks` fails with `CannotFulfillExactly` exactly when no counts
assignment over `S` has weighted sum `N`; in particular it fails whenever
`0 < N < min S` and never fails when `N = 0`. -/
theorem spec_C3 (S : List Int) (N : Int)
    (hS : PackCalc.ValidPackSizeSet S) (hN : 0 ≤ N) :
    (PackCalc.CalculatePacks N S = .error .cannotFulfill ↔
      ¬ ∃ f : Int → Nat, PackCalc.comboItems S f = N) ∧
    (0 < N → (∀ x ∈ S, N < x) →
      PackCalc.CalculatePacks N S = .error .cannotFulfill) ∧
    (N = 0 → PackCalc.CalculatePacks N S = .ok []) := by
  obtain ⟨hne, hnd, hlen, hpos⟩ := hS
  have hnorm := PackCalc.normalize_valid S ⟨hne, hnd, hlen, hpos⟩
  have hmemS := (PackCalc.normalize_ok_props S _ hnorm).2.2.2.2.1
  have hbridge : (∃ f : Int → Nat, PackCalc.comboItems S f = N) ↔
      PackCalc.Feasible ((List.insertionSort (· ≤ ·) S).map Int.toNat) N.toNat := by
    constructor
    · rintro ⟨f, hf⟩
      obtain ⟨l, hl, hsum, hlenl⟩ := PackCalc.combo_to_list S hpos f
      refine ⟨l.length, l, ?_, ?_, rfl⟩
      · intro x hx
        obtain ⟨y, hy, rfl⟩ := List.mem_map.mp (hl x hx)
        exact List.mem_map.mpr ⟨y, (hmemS y).mpr hy, rfl⟩
      · rw [hf] at hsum
        omega
    · rintro ⟨k, l, hl, hsum, hlenl⟩
      have hl' : ∀ x ∈ l, x ∈ S.map Int.toNat := by
        intro x hx
        obtain ⟨y, hy, rfl⟩ := List.mem_map.mp (hl x hx)
        exact List.mem_map.mpr ⟨y, (hmemS y).mp hy, rfl⟩
      obtain ⟨f, hfi, hfp⟩ := PackCalc.list_to_combo S hnd hpos l hl'
      refine ⟨f, ?_⟩
      rw [hfi, hsum]
      omega
  by_cases hN0 : N = 0
  · subst hN0
    have hok := PackCalc.calculatePacks_zero_ok S _ hnorm
    refine ⟨?_, ?_, fun _ => hok⟩
    · rw [hok]
      refine iff_of_false (by intro h; cases h) ?_
      intro hno
      exact hno ⟨fun _ => 0, by simp [PackCalc.comboItems]⟩
    · intro h0 _
      omega
  · have hNpos : 0 < N := by omega
    have hiff := PackCalc.calculatePacks_cannotFulfill_iff N S _ hNpos hnorm
    refine ⟨hiff.trans (not_congr hbridge).symm, ?_, fun h => absurd h hN0⟩
    · intro hp hminS
      rw [hiff]
      intro hfeas
      obtain ⟨f, hf⟩ := hbridge.mpr hfeas
      obtain ⟨l, hl, hsum, hlenl⟩ := PackCalc.combo_to_list S hpos f
      rw [hf] at hsum
      cases l with
      | nil =>
        simp only [List.sum_nil, Nat.cast_zero] at hsum
        omega
      | cons x l' =>
        have hx := hl x (List.mem_cons_self _ _)
        obtain ⟨y, hy, rfl⟩ := List.mem_map.mp hx
        have hylt := hminS y hy
        have hy0 := hpos y hy
        have h1 : y.toNat ≤ (y.toNat :: l').sum :=
          PackCalc.mem_le_sum (List.mem_cons_self _ _)
        have h2 : ((y.toNat : Nat) : Int) = y := Int.toNat_of_nonneg hy0.le
        have h4 : ((y.toNat : Nat) : Int) ≤ (((y.toNat :: l').sum : Nat) : Int) := by
          exact_mod_cast h1
        omega

/-- C3 witness: `S = [3, 5]`, `N = 7` (infeasible). -/
theorem spec_C3_witness :
    ((PackCalc.CalculatePacks 7 [3, 5] = .error .cannotFulfill ↔
      ¬ ∃ f : Int → Nat, PackCalc.comboItems [3, 5] f = 7) ∧
    ((0 : Int) < 7 → (∀ x ∈ ([3, 5] : List Int), 7 < x) →
      PackCalc.CalculatePacks 7 [3, 5] = .error .cannotFulfill) ∧
    ((7 : Int) = 0 → PackCalc.CalculatePacks 7 [3, 5] = .ok [])) :=
  spec_C3 [3, 5] 7 (by decide) (by decide)

/-- C6: the engine's and the store's pack-size validations accept exactly the
same inputs, and on success they produce the same normalized list. -/
theorem spec_C6 (xs : List Int) :
    (∀ l : List Int, PackCalc.normalizePackSizes xs = .ok l ↔
      PackStore.normalizePackSizes xs = .ok l) ∧
    ((∃ e, PackCalc.normalizePackSizes xs = .error e) ↔
      (∃ e, PackStore.normalizePackSizes xs = .error e)) := by
  refine ⟨fun l => (PackStore.normalize_agree_ok xs l).symm, ?_⟩
  rw [PackStore.normalize_rel xs]
  cases PackCalc.normalizePackSizes xs with
  | ok u =>
    constructor
    · rintro ⟨e, he⟩; cases he
    · rintro ⟨e, he⟩; cases he
  | error e =>
    exact ⟨fun _ => ⟨.invalidPackSizes, rfl⟩, fun _ => ⟨e, rfl⟩⟩

/-- C7: a `SetPackSizes` call whose candidate fails validation returns the
`InvalidPackSizes` error and leaves the readable state exactly as it was. -/
theorem spec_C7 (st sizes : List Int) (hbad : PackCalc.InvalidSizes sizes) :
    PackStore.SetPackSizes sizes st =
        (.error PackStore.StorageError.invalidPackSizes, st) ∧
      PackStore.GetPackSizes (PackStore.SetPackSizes sizes st).2 =
        PackStore.GetPackSizes st := by
  have herr := PackStore.normalize_invalid sizes hbad
  constructor
  · unfold PackStore.SetPackSizes
    rw [herr]
  · unfold PackStore.SetPackSizes
    rw [herr]

/-- C7 witness: replacing `[250, 500]` by the invalid candidate `[-7]`. -/
theorem spec_C7_witness :
    PackStore.SetPackSizes [-7] [250, 500] =
        (.error PackStore.StorageError.invalidPackSizes, [250, 500]) ∧
      PackStore.GetPackSizes (PackStore.SetPackSizes [-7] [250, 500]).2 =
        PackStore.GetPackSizes [250, 500] :=
  spec_C7 [250, 500] [-7] (by decide)

/-- C8: the initial store state is the default set, and every reachable
state holds 1 to 10 strictly increasing (hence distinct, sorted) positive
pack sizes. -/
theorem spec_C8 :
    PackStore.NewMemoryStorage = [250, 500, 1000, 2000, 5000] ∧
      ∀ st : List Int, PackStore.Reachable st →
        1 ≤ st.length ∧ st.length ≤ 10 ∧
          st.Sorted (· < ·) ∧ ∀ x ∈ st, 0 < x := by
  constructor
  · decide
  · intro st h
    induction h with
    | init => decide
    | set sizes h ih =>
      rcases PackStore.setPackSizes_snd sizes _ with heq | ⟨norm, hres, heq⟩
      · rw [heq]
        exact ih
      · rw [heq]
        have hcalc := (PackStore.normalize_agree_ok sizes norm).mp hres
        obtain ⟨hne', hnd', hsorted', hpos', hmem', hlen'⟩ :=
          PackCalc.normalize_ok_props sizes norm hcalc
        exact ⟨List.length_pos.mpr hne', hlen',
          PackStore.sorted_lt_of_sorted_le_nodup hsorted' hnd', hpos'⟩

/-- C8 witness: the initial state. -/
theorem spec_C8_witness :
    1 ≤ PackStore.NewMemoryStorage.length ∧
      PackStore.NewMemoryStorage.length ≤ 10 ∧
      PackStore.NewMemoryStorage.Sorted (· < ·) ∧
      ∀ x ∈ PackStore.NewMemoryStorage, 0 < x :=
  spec_C8.2 PackStore.NewMemoryStorage PackStore.Reachable.init

/-- C9: in the heap model, `GetPackSizes` always succeeds and returns a
reference to a freshly allocated sorted copy of the store's set; overwriting
that copy never changes the store's cell, so the set observed by any
subsequent read is unchanged. -/
theorem spec_C9 (st : PackStore.HeapState) (hwf : st.storeRef < st.heap.length) :
    ∃ (st' : PackStore.HeapState) (r : Nat),
      PackStore.getPackSizesH st = (st', Except.ok r) ∧
      r ≠ st.storeRef ∧
      st'.storeRef = st.storeRef ∧
      PackStore.readCell st'.heap r =
        PackStore.cloneAndSort (PackStore.readCell st.heap st.storeRef) ∧
      (PackStore.readCell st'.heap r).Sorted (· ≤ ·) ∧
      ∀ v : List Int,
        PackStore.observedSet
            ⟨PackStore.writeCell st'.heap r v, st'.storeRef⟩ =
          PackStore.observedSet st := by
  refine ⟨_, st.heap.length, rfl, by omega, rfl, ?_, ?_, ?_⟩
  · exact PackStore.readCell_append_self st.heap _
  · rw [PackStore.readCell_append_self]
    exact PackStore.cloneAndSort_sorted _
  · intro v
    unfold PackStore.observedSet
    dsimp only
    rw [PackStore.readCell_write_ne _ _ _ _ (by omega)]
    rw [PackStore.readCell_append_lt st.heap _ st.storeRef hwf]

/-- C9 witness: a one-cell heap holding the unsorted set `[5, 3]`. -/
theorem spec_C9_witness :
    ∃ (st' : PackStore.HeapState) (r : Nat),
      PackStore.getPackSizesH ⟨[[5, 3]], 0⟩ = (st', Except.ok r) ∧
      r ≠ (⟨[[5, 3]], 0⟩ : PackStore.HeapState).storeRef ∧
      st'.storeRef = (⟨[[5, 3]], 0⟩ : PackStore.HeapState).storeRef ∧
      PackStore.readCell st'.heap r =
        PackStore.cloneAndSort
          (PackStore.readCell (⟨[[5, 3]], 0⟩ : PackStore.HeapState).heap
            (⟨[[5, 3]], 0⟩ : PackStore.HeapState).storeRef) ∧
      (PackStore.readCell st'.heap r).Sorted (· ≤ ·) ∧
      ∀ v : List Int,
        PackStore.observedSet
            ⟨PackStore.writeCell st'.heap r v, st'.storeRef⟩ =
          PackStore.observedSet ⟨[[5, 3]], 0⟩ :=
  spec_C9 ⟨[[5, 3]], 0⟩ (by decide)
